import Mathlib

/-!
Verification of the Sudoku engine in `src/sudoku-web/src/sudoku.tsx`.

The TypeScript program works on a 9 by 9 board whose cells hold either a
number, a `Set` of pencil-mark numbers, or `null`.  We embed the board as a
function `Fin 9 → Fin 9 → Cell`; destructive updates of the source become
explicit state passing, and the `Math.random` calls of the source become
explicit parameters (an `oracle` giving the digit order tried by `solve`, a
list of `picks` for the carving loop of `generateNewPuzzle`, and a `Fin 11`
for the removal-count formula).  The recursion of `countSolutions` is driven
by an explicit fuel argument; fuel `82` dominates the real recursion depth,
which is bounded by the number of empty cells (at most 81) plus one.
-/

/-- A board cell: `null`, a placed number, or a set of pencil marks. -/
inductive Cell where
  | empty : Cell
  | digit : Nat → Cell
  | cand : Finset Nat → Cell
deriving DecidableEq

/-- The board type of the source, `type Board = Cell[][]`, as a 9 by 9 grid. -/
def Board : Type := Fin 9 → Fin 9 → Cell

instance : DecidableEq Board := by
  unfold Board
  infer_instance

/-- Deep copy of a board, `cloneBoard`; it is the identity in a pure embedding. -/
def cloneBoard (b : Board) : Board := b

/-- The fully empty board that `generateNewPuzzle` starts from. -/
def emptyBoard : Board := fun _ _ => Cell.empty

/-- Writing value `v` at row `r`, column `c` (the assignment `b[r][c] = v`). -/
def setCell (b : Board) (r c : Fin 9) (v : Cell) : Board :=
  fun i j => if i = r ∧ j = c then v else b i j

/-- Row `r.val / 3 * 3 + i.val` of the 3 by 3 box containing row `r`:
the source computes `boxRow = Math.floor(r / 3) * 3` and scans
`boxRow .. boxRow + 2`. -/
def boxJoin (x : Fin 9) (i : Fin 3) : Fin 9 :=
  ⟨x.val / 3 * 3 + i.val, by have h1 := x.isLt; have h2 := i.isLt; omega⟩

/-- Index of a cell of box `(a, _)` from a box-local coordinate. -/
def join3 (a : Fin 3) (i : Fin 3) : Fin 9 :=
  ⟨a.val * 3 + i.val, by have h1 := a.isLt; have h2 := i.isLt; omega⟩

/-- The helper `findEmpty` of `solve` and `countSolutions`: the first `null`
cell in row-major scan order. -/
def findEmpty (b : Board) : Option (Fin 9 × Fin 9) :=
  (List.finRange 9).findSome? fun r =>
    (List.finRange 9).findSome? fun c =>
      if b r c = Cell.empty then some (r, c) else none

/-- The number of empty cells of a board; the termination measure of the
backtracking search. -/
def numEmpty (b : Board) : Nat :=
  (Finset.univ.filter fun p : Fin 9 × Fin 9 => b p.1 p.2 = Cell.empty).card

theorem setCell_apply (b : Board) (r c : Fin 9) (v : Cell) (i j : Fin 9) :
    setCell b r c v i j = if i = r ∧ j = c then v else b i j := rfl

theorem setCell_same (b : Board) (r c : Fin 9) (h : b r c = Cell.empty) :
    setCell b r c Cell.empty = b := by
  funext i j
  rw [setCell_apply]
  split
  · next hij => rw [hij.1, hij.2, h]
  · rfl

theorem findEmpty_some {b : Board} {r c : Fin 9}
    (h : findEmpty b = some (r, c)) : b r c = Cell.empty := by
  unfold findEmpty at h
  obtain ⟨r', _, hr'⟩ := List.exists_of_findSome?_eq_some h
  obtain ⟨c', _, hc'⟩ := List.exists_of_findSome?_eq_some hr'
  by_cases hbe : b r' c' = Cell.empty
  · rw [if_pos hbe] at hc'
    obtain ⟨h1, h2⟩ := Prod.mk.injEq .. ▸ Option.some.injEq .. ▸ hc'
    rw [← h1, ← h2]
    exact hbe
  · rw [if_neg hbe] at hc'
    exact absurd hc' (Option.noConfusion)

theorem findEmpty_none {b : Board} (h : findEmpty b = none) :
    ∀ r c : Fin 9, b r c ≠ Cell.empty := by
  intro r c hrc
  unfold findEmpty at h
  rw [List.findSome?_eq_none_iff] at h
  have hr := h r (List.mem_finRange r)
  rw [List.findSome?_eq_none_iff] at hr
  have hc := hr c (List.mem_finRange c)
  rw [if_pos hrc] at hc
  exact Option.noConfusion hc

theorem numEmpty_le (b : Board) : numEmpty b ≤ 81 := by
  unfold numEmpty
  calc (Finset.univ.filter fun p : Fin 9 × Fin 9 => b p.1 p.2 = Cell.empty).card
      ≤ (Finset.univ : Finset (Fin 9 × Fin 9)).card := Finset.card_le_card (Finset.filter_subset _ _)
    _ = 81 := by simp

theorem numEmpty_setCell_digit_lt (b : Board) (r c : Fin 9) (d : Nat)
    (h : b r c = Cell.empty) :
    numEmpty (setCell b r c (Cell.digit d)) < numEmpty b := by
  unfold numEmpty
  apply Finset.card_lt_card
  constructor
  · intro p hp
    rw [Finset.mem_filter] at hp ⊢
    refine ⟨Finset.mem_univ p, ?_⟩
    have hp2 := hp.2
    rw [setCell_apply] at hp2
    by_cases hcase : p.1 = r ∧ p.2 = c
    · rw [if_pos hcase] at hp2
      exact absurd hp2 (Cell.noConfusion)
    · rw [if_neg hcase] at hp2
      exact hp2
  · intro hsub
    have hmem : (r, c) ∈ Finset.univ.filter fun p : Fin 9 × Fin 9 => b p.1 p.2 = Cell.empty := by
      rw [Finset.mem_filter]
      exact ⟨Finset.mem_univ _, h⟩
    have hmem2 := hsub hmem
    rw [Finset.mem_filter] at hmem2
    have hp2 := hmem2.2
    rw [setCell_apply] at hp2
    rw [if_pos ⟨rfl, rfl⟩] at hp2
    exact Cell.noConfusion hp2

/-- Validity check local to `solve`: the scans skip the cell under test
itself, which has already been overwritten with `num` when the check runs. -/
def solveIsValid (board : Board) (num : Nat) (r c : Fin 9) : Bool :=
  ((List.finRange 9).all fun i =>
    !(board r i == Cell.digit num && i != c) &&
    !(board i c == Cell.digit num && i != r)) &&
  ((List.finRange 3).all fun i => (List.finRange 3).all fun j =>
    !(board (boxJoin r i) (boxJoin c j) == Cell.digit num &&
      (boxJoin r i != r || boxJoin c j != c)))

mutual

/-- Backtracking solver.  The digit order tried at each step is random in the
source (`sort(() => Math.random() - 0.5)` over `1..9`); the randomness is
injected as `oracle`. -/
def solve (oracle : Board → List Nat) (b : Board) : Option Board :=
  match hfe : findEmpty (cloneBoard b) with
  | none => some (cloneBoard b)
  | some (r, c) => solveTry oracle (cloneBoard b) r c (oracle b) (findEmpty_some hfe)
termination_by (numEmpty b, (oracle b).length + 1)
decreasing_by
  simp only [cloneBoard]
  exact Prod.Lex.right (numEmpty b) (Nat.lt_succ_self (oracle b).length)

/-- The digit loop of `solve`: place `num`, test validity, recurse, and on
failure reset the cell (pure: keep using `b`) and try the next digit. -/
def solveTry (oracle : Board → List Nat) (b : Board) (r c : Fin 9)
    (nums : List Nat) (hrc : b r c = Cell.empty) : Option Board :=
  match nums with
  | [] => none
  | num :: rest =>
    let board := setCell b r c (Cell.digit num)
    if solveIsValid board num r c then
      match solve oracle board with
      | some solved => some solved
      | none => solveTry oracle b r c rest hrc
    else solveTry oracle b r c rest hrc
termination_by (numEmpty b, nums.length)
decreasing_by
  · simp_wf
    exact Prod.Lex.left _ _ (numEmpty_setCell_digit_lt b r c num hrc)
  · simp_wf
    exact Prod.Lex.right (numEmpty b) (Nat.lt_succ_self rest.length)
  · simp_wf
    exact Prod.Lex.right (numEmpty b) (Nat.lt_succ_self rest.length)

end

/-- Validity check local to `countSolutions`: unlike the one of `solve`, the
scans do not exclude the cell under test; the check runs before the cell is
overwritten, while it is still `null`. -/
def countIsValid (b : Board) (num : Nat) (r c : Fin 9) : Bool :=
  ((List.finRange 9).all fun i =>
    !(b r i == Cell.digit num) && !(b i c == Cell.digit num)) &&
  ((List.finRange 3).all fun i => (List.finRange 3).all fun j =>
    !(b (boxJoin r i) (boxJoin c j) == Cell.digit num))

mutual

/-- The `backtrack` closure of `countSolutions`.  The source mutates the
board it was handed and a captured `solutions` counter; here both are passed
and returned explicitly.  `fuel` only drives the recursion: one unit is spent
per placement level, so any fuel above `numEmpty b` never runs out. -/
def csBacktrack (fuel : Nat) (b : Board) (solutions : Nat) : Nat × Board :=
  match fuel with
  | 0 => (solutions, b)
  | fuel + 1 =>
    match findEmpty b with
    | none => (solutions + 1, b)
    | some (r, c) => csTry fuel b r c (List.range' 1 9) solutions
termination_by (fuel, 0)

/-- The digit loop `for (num = 1; num <= 9; num++)` of `backtrack`: on a
valid digit, place it and recurse; abort as soon as the counter passed 1,
without resetting the cell; otherwise reset the cell on the returned board
and continue. -/
def csTry (fuel : Nat) (b : Board) (r c : Fin 9) (nums : List Nat)
    (solutions : Nat) : Nat × Board :=
  match nums with
  | [] => (solutions, b)
  | num :: rest =>
    if countIsValid b num r c then
      let res := csBacktrack fuel (setCell b r c (Cell.digit num)) solutions
      if res.1 > 1 then res
      else csTry fuel (setCell res.2 r c Cell.empty) r c rest res.1
    else csTry fuel b r c rest solutions
termination_by (fuel, nums.length + 1)

end

/-- Counter and final board state of `countSolutions b`; the board component
records what the destructive search leaves in the argument grid. -/
def countSolutionsPair (b : Board) : Nat × Board :=
  csBacktrack 82 b 0

/-- Source `countSolutions`: the number of completions found before the
search stopped, in the range 0 to 2. -/
def countSolutions (b : Board) : Nat :=
  (countSolutionsPair b).1

/-- The `while (cellsToRemove > 0)` carving loop of `generateNewPuzzle`.
Each random pick of the source is consumed from `picks`; if the list is
exhausted before the removal target is met the result is `none` (the source
would keep drawing random picks forever). -/
def carve : List (Fin 9 × Fin 9) → Nat → Board → Option Board
  | _, 0, puzzle => some puzzle
  | [], _ + 1, _ => none
  | (r, c) :: rest, n + 1, puzzle =>
    if puzzle r c ≠ Cell.empty then
      let removed := setCell puzzle r c Cell.empty
      if countSolutions (cloneBoard removed) = 1 then carve rest n removed
      else carve rest (n + 1) puzzle
    else carve rest (n + 1) puzzle

/-- Source `generateNewPuzzle`.  The removal target is
`Math.floor(Math.random() * (50 - 40 + 1)) + 46`, that is `t.val + 46` for a
random `t : Fin 11` (range 46 to 56, despite the comment in the source that
says 40 to 50).  Returns `none` where the source would throw (no solution) or
loop forever (picks exhausted). -/
def generateNewPuzzle (oracle : Board → List Nat)
    (picks : List (Fin 9 × Fin 9)) (t : Fin 11) : Option (Board × Board) :=
  match solve oracle (cloneBoard emptyBoard) with
  | none => none
  | some solution =>
    match carve picks (t.val + 46) (cloneBoard solution) with
    | none => none
    | some puzzle => some (puzzle, solution)

/-- The test `puzzleAndSolution.puzzle[r][c] !== null` for a given cell. -/
def isGiven (puzzle : Board) (r c : Fin 9) : Bool :=
  puzzle r c != Cell.empty

/-- Whether a cell is a pencil-mark set containing `d`
(`cell instanceof Set && cell.has(d)`). -/
def candHolds (x : Cell) (d : Nat) : Bool :=
  match x with
  | Cell.cand s => decide (d ∈ s)
  | _ => false

/-- Whether a cell is a pencil-mark set (`cell instanceof Set`). -/
def isCandCell (x : Cell) : Bool :=
  match x with
  | Cell.cand _ => true
  | _ => false

/-- The effect of one `Set.delete(v)` on a cell value: pencil-mark sets lose
`v`, other cells are untouched. -/
def cellErase (x : Cell) (v : Nat) : Cell :=
  match x with
  | Cell.cand s => Cell.cand (s.erase v)
  | x => x

/-- One step of `removeCandidates`: if the cell at `(r, c)` is a `Set`,
delete `v` from it in place; otherwise leave the board unchanged. -/
def eraseCand (b : Board) (r c : Fin 9) (v : Nat) : Board :=
  match b r c with
  | Cell.cand s => setCell b r c (Cell.cand (s.erase v))
  | _ => b

/-- The cells visited by the scans of `removeCandidates` (and of the
conflict checks): the row, the column, and the 3 by 3 box of `(row, col)`,
in source loop order. -/
def scanList (row col : Fin 9) : List (Fin 9 × Fin 9) :=
  ((List.finRange 9).flatMap fun i => [(row, i), (i, col)]) ++
    ((List.finRange 3).flatMap fun i =>
      (List.finRange 3).map fun j => (boxJoin row i, boxJoin col j))

/-- Source `removeCandidates`: after a digit is placed at `(row, col)`,
delete `value` from every pencil-mark set in the same row, column, or box.
No emptied set is replaced by `null` here. -/
def removeCandidates (b : Board) (row col : Fin 9) (value : Nat) : Board :=
  (scanList row col).foldl (fun acc q => eraseCand acc q.1 q.2 value) b

/-- The toggle-off test of the digit branch of `onBoardKeyDown`: every
selected cell (given cells included) currently holds exactly `Digit d`. -/
def numberExistsInAll (b : Board) (sel : List (Fin 9 × Fin 9)) (d : Nat) : Bool :=
  sel.all fun q => b q.1 q.2 == Cell.digit d

/-- The digit branch of `onBoardKeyDown` (the `place_digit` action of the
spec): if `numberExistsInAll`, clear every selected non-given cell; otherwise
write `Digit d` into each selected non-given cell and prune `d` from the
pencil marks of its row, column, and box. -/
def placeDigit (puzzle b : Board) (sel : List (Fin 9 × Fin 9)) (d : Nat) : Board :=
  let flag := numberExistsInAll b sel d
  sel.foldl (fun acc q =>
    if isGiven puzzle q.1 q.2 then acc
    else if flag then setCell acc q.1 q.2 Cell.empty
    else removeCandidates (setCell acc q.1 q.2 (Cell.digit d)) q.1 q.2 d) b

/-- The toggle test of the pencil branch of `onBoardKeyDown`: every selected
cell is a `Set` containing `d`. -/
def pencilMarkExistsInAll (b : Board) (sel : List (Fin 9 × Fin 9)) (d : Nat) : Bool :=
  sel.all fun q => candHolds (b q.1 q.2) d

/-- The pencil branch of `onBoardKeyDown` (the `toggle_candidate` action of
the spec).  An emptied set collapses to `null` here
(`candidates.size ? candidates : null`). -/
def toggleCand (puzzle b : Board) (sel : List (Fin 9 × Fin 9)) (d : Nat) : Board :=
  let flag := pencilMarkExistsInAll b sel d
  sel.foldl (fun acc q =>
    if isGiven puzzle q.1 q.2 then acc
    else
      let s0 : Finset Nat :=
        match acc q.1 q.2 with
        | Cell.cand s => s
        | _ => ∅
      let s1 := if flag then s0.erase d else insert d s0
      setCell acc q.1 q.2 (if s1.Nonempty then Cell.cand s1 else Cell.empty)) b

/-- The Backspace/Delete branch of `onBoardKeyDown` (the `clear` action of
the spec): set every selected non-given cell to `null`. -/
def clearSel (puzzle b : Board) (sel : List (Fin 9 × Fin 9)) : Board :=
  sel.foldl (fun acc q =>
    if isGiven puzzle q.1 q.2 then acc
    else setCell acc q.1 q.2 Cell.empty) b

/-- A player action fed to `onBoardKeyDown`: a digit key, a digit key in
pencil mode, or Backspace/Delete, together with the current selection. -/
inductive PlayerAction where
  | place (sel : List (Fin 9 × Fin 9)) (d : Nat) : PlayerAction
  | pencil (sel : List (Fin 9 × Fin 9)) (d : Nat) : PlayerAction
  | clear (sel : List (Fin 9 × Fin 9)) : PlayerAction

/-- One `onBoardKeyDown` dispatch: the empty-selection early return and the
digit-range guard `isNaN(digit) || digit < 1 || digit > 9` of the source are
included. -/
def applyAction (puzzle b : Board) : PlayerAction → Board
  | PlayerAction.place sel d =>
    if sel.isEmpty then b
    else if 1 ≤ d ∧ d ≤ 9 then placeDigit puzzle b sel d else b
  | PlayerAction.pencil sel d =>
    if sel.isEmpty then b
    else if 1 ≤ d ∧ d ≤ 9 then toggleCand puzzle b sel d else b
  | PlayerAction.clear sel =>
    if sel.isEmpty then b else clearSel puzzle b sel

/-- Source `pencilConflict`: the row, column, and box scans test
`b[..] === num` with no exclusion of the cell `(row, col)` itself. -/
def pencilConflict (b : Board) (row col : Fin 9) (num : Nat) : Bool :=
  ((List.finRange 9).any fun i =>
    b row i == Cell.digit num || b i col == Cell.digit num) ||
  ((List.finRange 3).any fun i => (List.finRange 3).any fun j =>
    b (boxJoin row i) (boxJoin col j) == Cell.digit num)

/-- Two coordinates share a peer group: same row, same column, or same
3 by 3 box.  The relation is reflexive; a peer in the sense of the spec is a
cell with `SameGroup` that is distinct from the cell itself. -/
def SameGroup (r c r' c' : Fin 9) : Prop :=
  r = r' ∨ c = c' ∨ (r.val / 3 = r'.val / 3 ∧ c.val / 3 = c'.val / 3)

instance (r c r' c' : Fin 9) : Decidable (SameGroup r c r' c') := by
  unfold SameGroup
  infer_instance

/-- Modelled from the spec: `digit_occupied_by_peers(grid, r, c, digit)` is
said to be true iff `digit` is held as a placed digit by any peer of
`(r, c)`, the cell itself excluded.  This is the comparison point for the
source function `pencilConflict`. -/
def specDigitOccupiedByPeers (b : Board) (r c : Fin 9) (d : Nat) : Prop :=
  ∃ r' c' : Fin 9, SameGroup r c r' c' ∧ (r', c') ≠ (r, c) ∧ b r' c' = Cell.digit d

instance (b : Board) (r c : Fin 9) (d : Nat) :
    Decidable (specDigitOccupiedByPeers b r c d) := by
  unfold specDigitOccupiedByPeers
  infer_instance

/-- A placed digit `d` somewhere in the row, column, or box of `(r, c)`,
the cell `(r, c)` itself included: what `pencilConflict` actually scans. -/
def occupiedInclSelf (b : Board) (r c : Fin 9) (d : Nat) : Prop :=
  ∃ r' c' : Fin 9, SameGroup r c r' c' ∧ b r' c' = Cell.digit d

/-- The digit of a cell, defaulting to 0 for `null` and pencil-mark cells. -/
def digitAt (b : Board) (r c : Fin 9) : Nat :=
  match b r c with
  | Cell.digit d => d
  | _ => 0

/-- No cell of the board is `null`: the board is fully filled. -/
def NoEmptyCell (b : Board) : Prop :=
  ∀ r c : Fin 9, b r c ≠ Cell.empty

/-- Every row, column, and 3 by 3 box holds each of the digits 1 to 9 in
exactly one cell. -/
def LatinBoard (b : Board) : Prop :=
  ∀ d : Nat, 1 ≤ d ∧ d ≤ 9 →
    (∀ r : Fin 9,
      (Finset.univ.filter fun c : Fin 9 => b r c = Cell.digit d).card = 1) ∧
    (∀ c : Fin 9,
      (Finset.univ.filter fun r : Fin 9 => b r c = Cell.digit d).card = 1) ∧
    (∀ br bc : Fin 3,
      (Finset.univ.filter fun p : Fin 3 × Fin 3 =>
        b (join3 br p.1) (join3 bc p.2) = Cell.digit d).card = 1)

/-- Post-condition of `solve` for claim C2: whenever a board is returned, it
satisfies the Latin-square-plus-box property. -/
def LatinOpt : Option Board → Prop
  | none => True
  | some b => LatinBoard b

/-- Post-condition of `generateNewPuzzle` for claim C1: whenever a pair is
returned, every non-empty puzzle cell carries the solution digit of its
coordinate and the puzzle has exactly one completion. -/
def GoodGen : Option (Board × Board) → Prop
  | none => True
  | some (puzzle, solution) =>
    (∀ r c : Fin 9, puzzle r c ≠ Cell.empty → puzzle r c = solution r c) ∧
    countSolutions puzzle = 1

/-- Every placed digit of the board lies in 1 to 9. -/
def DigitsInRange (b : Board) : Prop :=
  ∀ r c : Fin 9, ∀ d : Nat, b r c = Cell.digit d → 1 ≤ d ∧ d ≤ 9

/-- No cell of the board is a pencil-mark set. -/
def NoCandCells (b : Board) : Prop :=
  ∀ r c : Fin 9, ∀ s : Finset Nat, b r c ≠ Cell.cand s

/-- No two distinct cells sharing a row, column, or box hold the same
placed digit: the placement invariant of the spec. -/
def NoPeerDup (b : Board) : Prop :=
  ∀ r c r' c' : Fin 9, ∀ d : Nat, SameGroup r c r' c' → (r, c) ≠ (r', c') →
    b r c = Cell.digit d → b r' c' ≠ Cell.digit d

/-- A sample digit-order oracle used to witness the solver theorem: at each
board it proposes the digit of one fixed valid full grid at the first empty
cell, so the solver fills that grid without backtracking. -/
def stdOracle (b : Board) : List Nat :=
  match findEmpty b with
  | some (r, c) => [(r.val * 3 + r.val / 3 + c.val) % 9 + 1]
  | none => []

theorem findEmpty_eq_none_of_noEmpty {b : Board} (h : NoEmptyCell b) :
    findEmpty b = none := by
  cases hfe : findEmpty b with
  | none => rfl
  | some rc =>
    obtain ⟨r, c⟩ := rc
    exact absurd (findEmpty_some hfe) (h r c)

theorem csBacktrack_fst_le :
    ∀ (fuel : Nat) (b : Board) (s : Nat), s ≤ 1 → (csBacktrack fuel b s).1 ≤ 2 := by
  intro fuel
  induction fuel with
  | zero =>
    intro b s hs
    simp only [csBacktrack]
    omega
  | succ fuel ih =>
    have htry : ∀ (nums : List Nat) (b : Board) (r c : Fin 9) (s : Nat), s ≤ 1 →
        (csTry fuel b r c nums s).1 ≤ 2 := by
      intro nums
      induction nums with
      | nil =>
        intro b r c s hs
        simp only [csTry]
        omega
      | cons num rest ihn =>
        intro b r c s hs
        rw [csTry]
        by_cases hv : countIsValid b num r c = true
        · simp only [hv, if_true]
          by_cases hgt : (csBacktrack fuel (setCell b r c (Cell.digit num)) s).1 > 1
          · simp only [hgt, if_true]
            exact ih _ _ hs
          · simp only [hgt, if_false]
            exact ihn _ _ _ _ (by omega)
        · simp only [hv, if_false]
          exact ihn _ _ _ _ hs
    intro b s hs
    rw [csBacktrack]
    cases hfe : findEmpty b with
    | none => simpa using by omega
    | some rc =>
      obtain ⟨r, c⟩ := rc
      simpa using htry _ _ _ _ _ hs

theorem setCell_setCell (b : Board) (r c : Fin 9) (v w : Cell) :
    setCell (setCell b r c v) r c w = setCell b r c w := by
  funext i j
  simp only [setCell]
  split
  · rfl
  · rfl

theorem csBacktrack_succ (fuel : Nat) (b : Board) (s : Nat) :
    csBacktrack (fuel + 1) b s =
      match findEmpty b with
      | none => (s + 1, b)
      | some (r, c) => csTry fuel b r c (List.range' 1 9) s := by
  rw [csBacktrack]

theorem csBacktrack_restore :
    ∀ (fuel : Nat) (b : Board) (s : Nat),
      (csBacktrack fuel b s).1 ≤ 1 → (csBacktrack fuel b s).2 = b := by
  intro fuel
  induction fuel with
  | zero =>
    intro b s _
    simp only [csBacktrack]
  | succ fuel ih =>
    have htry : ∀ (nums : List Nat) (b : Board) (r c : Fin 9) (s : Nat),
        b r c = Cell.empty → (csTry fuel b r c nums s).1 ≤ 1 →
        (csTry fuel b r c nums s).2 = b := by
      intro nums
      induction nums with
      | nil =>
        intro b r c s _ _
        simp only [csTry]
      | cons num rest ihn =>
        intro b r c s hrc hle
        rw [csTry] at hle ⊢
        by_cases hv : countIsValid b num r c = true
        · simp only [hv, if_true] at hle ⊢
          by_cases hgt : (csBacktrack fuel (setCell b r c (Cell.digit num)) s).1 > 1
          · simp only [hgt, if_true] at hle
            omega
          · simp only [hgt, if_true, if_false] at hle ⊢
            have hres : (csBacktrack fuel (setCell b r c (Cell.digit num)) s).2 =
                setCell b r c (Cell.digit num) := ih _ _ (by omega)
            rw [hres, setCell_setCell, setCell_same b r c hrc] at hle ⊢
            exact ihn _ _ _ _ hrc hle
        · simp only [hv, if_false] at hle ⊢
          exact ihn _ _ _ _ hrc hle
    intro b s hle
    rw [csBacktrack_succ] at hle ⊢
    cases hfe : findEmpty b with
    | none => simp [hfe]
    | some rc =>
      obtain ⟨r, c⟩ := rc
      rw [hfe] at hle
      exact htry _ _ _ _ _ (findEmpty_some hfe) hle

theorem csBacktrack_complete :
    ∀ (fuel : Nat) (b : Board) (s : Nat), s ≤ 1 → 2 ≤ (csBacktrack fuel b s).1 →
      NoEmptyCell (csBacktrack fuel b s).2 := by
  intro fuel
  induction fuel with
  | zero =>
    intro b s hs h2
    simp only [csBacktrack] at h2
    omega
  | succ fuel ih =>
    have htry : ∀ (nums : List Nat) (b : Board) (r c : Fin 9) (s : Nat),
        s ≤ 1 → 2 ≤ (csTry fuel b r c nums s).1 →
        NoEmptyCell (csTry fuel b r c nums s).2 := by
      intro nums
      induction nums with
      | nil =>
        intro b r c s hs h2
        simp only [csTry] at h2
        omega
      | cons num rest ihn =>
        intro b r c s hs h2
        rw [csTry] at h2 ⊢
        by_cases hv : countIsValid b num r c = true
        · simp only [hv, if_true] at h2 ⊢
          by_cases hgt : (csBacktrack fuel (setCell b r c (Cell.digit num)) s).1 > 1
          · simp only [hgt, if_true] at h2 ⊢
            exact ih _ _ hs h2
          · simp only [hgt, if_false] at h2 ⊢
            have hres := csBacktrack_fst_le fuel (setCell b r c (Cell.digit num)) s hs
            exact ihn _ _ _ _ (by omega) h2
        · simp only [hv, if_false] at h2 ⊢
          exact ihn _ _ _ _ hs h2
    intro b s hs h2
    rw [csBacktrack_succ] at h2 ⊢
    cases hfe : findEmpty b with
    | none =>
      simp only [hfe]
      exact fun r c => findEmpty_none hfe r c
    | some rc =>
      obtain ⟨r, c⟩ := rc
      rw [hfe] at h2
      exact htry _ _ _ _ _ hs h2

/-- Claim C3: for every input grid, `countSolutions` returns a count that
never exceeds the cap of 2 (and, being a natural number, is never
negative): the search aborts as soon as the running counter passes 1. -/
theorem countSolutions_le_two (b : Board) : countSolutions b ≤ 2 :=
  csBacktrack_fst_le 82 b 0 (by omega)

/-- Claim C10: `countSolutions` works destructively on its argument.  When
the returned count is 0 or 1 the search has unwound all its placements and
the final grid equals the input grid; when the count is 2 the search aborted
mid-descent and the final grid is fully filled (it holds the second solution
found), not the original contents. -/
theorem countSolutions_frame (b : Board) :
    if (countSolutionsPair b).1 ≤ 1 then (countSolutionsPair b).2 = b
    else (countSolutionsPair b).1 = 2 ∧ NoEmptyCell (countSolutionsPair b).2 ∧
      (countSolutionsPair b).2 ≠ b := by
  by_cases h : (countSolutionsPair b).1 ≤ 1
  · rw [if_pos h]
    exact csBacktrack_restore 82 b 0 h
  · rw [if_neg h]
    have hle : (csBacktrack 82 b 0).1 ≤ 2 := csBacktrack_fst_le 82 b 0 (by omega)
    have h2 : 2 ≤ (csBacktrack 82 b 0).1 := by
      unfold countSolutionsPair at h
      omega
    have hcomp : NoEmptyCell (countSolutionsPair b).2 :=
      csBacktrack_complete 82 b 0 (by omega) h2
    refine ⟨by unfold countSolutionsPair; omega, hcomp, ?_⟩
    cases hfe : findEmpty b with
    | none =>
      have : countSolutionsPair b = (1, b) := by
        unfold countSolutionsPair
        rw [show (82 : Nat) = 81 + 1 from rfl, csBacktrack_succ, hfe]
      rw [this] at h
      omega
    | some rc =>
      obtain ⟨r, c⟩ := rc
      intro heq
      rw [heq] at hcomp
      exact hcomp r c (findEmpty_some hfe)

/-- Claim C9: the recursion of `solve` is well-founded.  Whenever the
row-major scan finds an empty cell, placing any digit there strictly
decreases the number of empty cells, and that measure is at most 81, so the
recursion depth is bounded by 81.  (In this development the totality of
`solve` is established by exactly this measure.) -/
theorem solve_recursion_decreases (b : Board) (r c : Fin 9)
    (h : findEmpty b = some (r, c)) :
    (∀ d : Nat, numEmpty (setCell b r c (Cell.digit d)) < numEmpty b) ∧
      numEmpty b ≤ 81 :=
  ⟨fun d => numEmpty_setCell_digit_lt b r c d (findEmpty_some h), numEmpty_le b⟩

theorem solve_recursion_decreases_witness :
    findEmpty emptyBoard = some (0, 0) ∧
    ((∀ d : Nat, numEmpty (setCell emptyBoard 0 0 (Cell.digit d)) <
        numEmpty emptyBoard) ∧ numEmpty emptyBoard ≤ 81) :=
  ⟨rfl, solve_recursion_decreases emptyBoard 0 0 rfl⟩

theorem boxJoin_div (x : Fin 9) (i : Fin 3) :
    (boxJoin x i).val / 3 = x.val / 3 := by
  have h1 := x.isLt
  have h2 := i.isLt
  simp only [boxJoin]
  omega

theorem boxJoin_surj {x y : Fin 9} (h : y.val / 3 = x.val / 3) :
    ∃ i : Fin 3, boxJoin x i = y := by
  have h1 := x.isLt
  have h2 := y.isLt
  refine ⟨⟨y.val % 3, by omega⟩, ?_⟩
  apply Fin.ext
  simp only [boxJoin]
  omega

/-- Claim C6 (amended): `pencilConflict(grid, r, c, digit)` is true iff some
cell sharing the row, the column, or the 3 by 3 box of `(r, c)` — the cell
`(r, c)` itself included — holds `digit` as its placed value.  The source
scans do not exclude the cell itself, so its own content matters. -/
theorem pencilConflict_iff (b : Board) (r c : Fin 9) (d : Nat) :
    pencilConflict b r c d = true ↔ occupiedInclSelf b r c d := by
  unfold pencilConflict occupiedInclSelf
  simp only [List.any_eq_true, Bool.or_eq_true, beq_iff_eq, List.mem_finRange, true_and]
  constructor
  · rintro (⟨i, hi | hi⟩ | ⟨i, j, hij⟩)
    · exact ⟨r, i, Or.inl rfl, hi⟩
    · exact ⟨i, c, Or.inr (Or.inl rfl), hi⟩
    · exact ⟨boxJoin r i, boxJoin c j,
        Or.inr (Or.inr ⟨(boxJoin_div r i).symm, (boxJoin_div c j).symm⟩), hij⟩
  · rintro ⟨r', c', hsg | hsg | ⟨hr, hc⟩, heq⟩
    · exact Or.inl ⟨c', Or.inl (hsg ▸ heq)⟩
    · exact Or.inl ⟨r', Or.inr (hsg ▸ heq)⟩
    · obtain ⟨i, hi⟩ := boxJoin_surj hr.symm
      obtain ⟨j, hj⟩ := boxJoin_surj hc.symm
      exact Or.inr ⟨i, j, by rw [hi, hj]; exact heq⟩

/-- Counterexample to claim C6 as stated: on a board whose only digit is a 5
at `(0, 0)`, the function `pencilConflict` reports a conflict for digit 5 at
`(0, 0)` although no peer of `(0, 0)` (self excluded) holds 5 — the claim
says the result should be true iff a peer holds the digit. -/
theorem pencilConflict_self_counterexample :
    pencilConflict (setCell emptyBoard 0 0 (Cell.digit 5)) 0 0 5 = true ∧
    ¬ specDigitOccupiedByPeers (setCell emptyBoard 0 0 (Cell.digit 5)) 0 0 5 := by
  constructor
  · decide
  · decide

theorem cellErase_idem (x : Cell) (v : Nat) :
    cellErase (cellErase x v) v = cellErase x v := by
  cases x <;> simp [cellErase]

theorem eraseCand_apply (b : Board) (r c : Fin 9) (v : Nat) (i j : Fin 9) :
    eraseCand b r c v i j = if i = r ∧ j = c then cellErase (b r c) v else b i j := by
  unfold eraseCand
  cases hb : b r c with
  | empty =>
    split
    · next hij => rw [hij.1, hij.2]; exact hb
    · rfl
  | digit d =>
    split
    · next hij => rw [hij.1, hij.2]; exact hb
    · rfl
  | cand s => rfl

theorem foldl_eraseCand_apply (v : Nat) :
    ∀ (L : List (Fin 9 × Fin 9)) (b : Board) (i j : Fin 9),
      (L.foldl (fun acc q => eraseCand acc q.1 q.2 v) b) i j =
        if (i, j) ∈ L then cellErase (b i j) v else b i j := by
  intro L
  induction L with
  | nil => simp
  | cons q L ih =>
    intro b i j
    rw [List.foldl_cons, ih]
    by_cases hq : (i, j) = q
    · have h1 : eraseCand b q.1 q.2 v i j = cellErase (b i j) v := by
        rw [eraseCand_apply, if_pos ⟨congrArg Prod.fst hq, congrArg Prod.snd hq⟩]
        rw [show q.1 = i from congrArg Prod.fst hq.symm,
            show q.2 = j from congrArg Prod.snd hq.symm]
      rw [h1]
      have hmem : (i, j) ∈ q :: L := by
        rw [hq]
        exact List.mem_cons_self q L
      rw [if_pos hmem]
      by_cases hl : (i, j) ∈ L
      · rw [if_pos hl, cellErase_idem]
      · rw [if_neg hl]
    · have h1 : eraseCand b q.1 q.2 v i j = b i j := by
        rw [eraseCand_apply, if_neg]
        rintro ⟨h1, h2⟩
        exact hq (Prod.ext h1 h2)
      rw [h1]
      by_cases hl : (i, j) ∈ L
      · rw [if_pos hl, if_pos (List.mem_cons_of_mem q hl)]
      · rw [if_neg hl, if_neg]
        rw [List.mem_cons]
        rintro (h | h)
        · exact hq h
        · exact hl h

theorem mem_scanList_iff (row col : Fin 9) (p : Fin 9 × Fin 9) :
    p ∈ scanList row col ↔ SameGroup row col p.1 p.2 := by
  obtain ⟨i, j⟩ := p
  unfold scanList SameGroup
  simp only [List.mem_append, List.mem_flatMap, List.mem_map, List.mem_finRange,
    List.mem_cons, List.mem_singleton, List.not_mem_nil, or_false, true_and,
    Prod.mk.injEq]
  constructor
  · rintro (⟨k, ⟨h1, h2⟩ | ⟨h1, h2⟩⟩ | ⟨k, l, h1, h2⟩)
    · exact Or.inl h1.symm
    · exact Or.inr (Or.inl h2.symm)
    · refine Or.inr (Or.inr ⟨?_, ?_⟩)
      · rw [← h1, boxJoin_div]
      · rw [← h2, boxJoin_div]
  · rintro (h | h | ⟨h1, h2⟩)
    · exact Or.inl ⟨j, Or.inl ⟨h.symm, rfl⟩⟩
    · exact Or.inl ⟨i, Or.inr ⟨rfl, h.symm⟩⟩
    · obtain ⟨k, hk⟩ := boxJoin_surj h1.symm
      obtain ⟨l, hl⟩ := boxJoin_surj h2.symm
      exact Or.inr ⟨k, l, hk, hl⟩

theorem removeCandidates_apply (b : Board) (row col : Fin 9) (v : Nat)
    (i j : Fin 9) :
    removeCandidates b row col v i j =
      if SameGroup row col i j then cellErase (b i j) v else b i j := by
  unfold removeCandidates
  rw [foldl_eraseCand_apply]
  by_cases h : SameGroup row col i j
  · rw [if_pos ((mem_scanList_iff row col (i, j)).mpr h), if_pos h]
  · rw [if_neg (fun hm => h ((mem_scanList_iff row col (i, j)).mp hm)), if_neg h]

/-- Claim C4 (amended): when a digit placement removes `v` from the
pencil-mark collection of a cell sharing a row, column, or box, the cell
keeps a `Candidates` collection with `v` erased — even when the collection
thereby becomes empty, it stays an empty `Candidates` collection rather than
becoming `Empty`.  (`removeCandidates` never replaces an emptied set by
`null`; only the pencil-toggle branch collapses empty sets.) -/
theorem removeCandidates_keeps_cand (b : Board) (row col : Fin 9) (v : Nat)
    (i j : Fin 9) (s : Finset Nat) (hs : b i j = Cell.cand s)
    (hsg : SameGroup row col i j) :
    removeCandidates b row col v i j = Cell.cand (s.erase v) := by
  rw [removeCandidates_apply, if_pos hsg, hs]
  rfl

theorem removeCandidates_keeps_cand_witness :
    removeCandidates (setCell emptyBoard 0 1 (Cell.cand {5})) 0 0 5 0 1 =
      Cell.cand (({5} : Finset Nat).erase 5) :=
  removeCandidates_keeps_cand _ 0 0 5 0 1 {5} (by decide) (Or.inl rfl)

/-- Counterexample to claim C4 as stated: starting from an all-empty puzzle,
the player pencils the mark 5 into cell `(0, 1)` and then places the digit 5
at `(0, 0)`.  The pruning deletes 5 from the peer cell `(0, 1)`, whose
collection becomes empty, yet the cell holds the empty `Candidates`
collection afterwards instead of becoming `Empty`. -/
theorem place_digit_empty_cand_counterexample :
    (List.foldl (applyAction emptyBoard) emptyBoard
      [PlayerAction.pencil [(0, 1)] 5, PlayerAction.place [(0, 0)] 5]) 0 1 =
      Cell.cand ∅ ∧ Cell.cand ∅ ≠ Cell.empty := by
  constructor
  · decide
  · decide

theorem foldl_place_step_persist (p : Board) (d : Nat) (flag : Bool) :
    ∀ (L : List (Fin 9 × Fin 9)) (acc : Board) (q : Fin 9 × Fin 9),
      acc q.1 q.2 = (if flag then Cell.empty else Cell.digit d) →
      (L.foldl (fun acc x =>
        if isGiven p x.1 x.2 then acc
        else if flag then setCell acc x.1 x.2 Cell.empty
        else removeCandidates (setCell acc x.1 x.2 (Cell.digit d)) x.1 x.2 d) acc)
          q.1 q.2 = (if flag then Cell.empty else Cell.digit d) := by
  intro L
  induction L with
  | nil => intro acc q hacc; exact hacc
  | cons x L ih =>
    intro acc q hacc
    rw [List.foldl_cons]
    apply ih
    by_cases hgiv : isGiven p x.1 x.2 = true
    · rw [if_pos hgiv]; exact hacc
    · rw [if_neg hgiv]
      cases flag with
      | true =>
        simp only [if_true]
        rw [setCell_apply]
        split
        · rfl
        · simpa using hacc
      | false =>
        simp only [Bool.false_eq_true, if_false]
        rw [removeCandidates_apply]
        have hset : setCell acc x.1 x.2 (Cell.digit d) q.1 q.2 = Cell.digit d := by
          rw [setCell_apply]
          split
          · rfl
          · simpa using hacc
        rw [hset]
        split
        · rfl
        · rfl

theorem foldl_place_step_mem (p : Board) (d : Nat) (flag : Bool) :
    ∀ (L : List (Fin 9 × Fin 9)) (acc : Board) (q : Fin 9 × Fin 9),
      q ∈ L → isGiven p q.1 q.2 = false →
      (L.foldl (fun acc x =>
        if isGiven p x.1 x.2 then acc
        else if flag then setCell acc x.1 x.2 Cell.empty
        else removeCandidates (setCell acc x.1 x.2 (Cell.digit d)) x.1 x.2 d) acc)
          q.1 q.2 = (if flag then Cell.empty else Cell.digit d) := by
  intro L
  induction L with
  | nil =>
    intro acc q hq _
    exact absurd hq (List.not_mem_nil q)
  | cons x L ih =>
    intro acc q hq hg
    rcases List.mem_cons.mp hq with hq | hq
    · rw [List.foldl_cons]
      apply foldl_place_step_persist
      rw [hq] at hg ⊢
      rw [if_neg (by simp [hg])]
      cases flag with
      | true =>
        simp only [if_true]
        rw [setCell_apply, if_pos ⟨rfl, rfl⟩]
      | false =>
        simp only [Bool.false_eq_true, if_false]
        rw [removeCandidates_apply]
        have hset : setCell acc x.1 x.2 (Cell.digit d) x.1 x.2 = Cell.digit d := by
          rw [setCell_apply, if_pos ⟨rfl, rfl⟩]
        rw [hset]
        split
        · rfl
        · rfl
    · rw [List.foldl_cons]
      exact ih _ q hq hg

/-- Claim C7 (amended): the digit branch performs its toggle-off exactly when
every selected cell — the given cells in the selection included — currently
equals `Digit d`: under that condition every selected non-given cell becomes
`Empty`, and otherwise it becomes `Digit d`.  (The source computes
`numberExistsInAll` over all selected cells, given or not.) -/
theorem place_digit_toggle_condition (p b : Board) (sel : List (Fin 9 × Fin 9))
    (d : Nat) (q : Fin 9 × Fin 9) (hq : q ∈ sel)
    (hg : isGiven p q.1 q.2 = false) :
    placeDigit p b sel d q.1 q.2 =
      (if numberExistsInAll b sel d then Cell.empty else Cell.digit d) ∧
    (numberExistsInAll b sel d = true ↔ ∀ x ∈ sel, b x.1 x.2 = Cell.digit d) := by
  constructor
  · exact foldl_place_step_mem p d (numberExistsInAll b sel d) sel b q hq hg
  · unfold numberExistsInAll
    simp [List.all_eq_true, beq_iff_eq]

theorem place_digit_toggle_condition_witness :
    (placeDigit emptyBoard emptyBoard [(0, 0)] 5 0 0 =
      (if numberExistsInAll emptyBoard [(0, 0)] 5 then Cell.empty
       else Cell.digit 5)) ∧
    (numberExistsInAll emptyBoard [(0, 0)] 5 = true ↔
      ∀ x ∈ [((0 : Fin 9), (0 : Fin 9))], emptyBoard x.1 x.2 = Cell.digit 5) :=
  place_digit_toggle_condition emptyBoard emptyBoard [(0, 0)] 5 (0, 0)
    (List.mem_cons_self _ _) (by decide)

/-- Counterexample to claim C7 as stated: the puzzle has a given 3 at
`(0, 0)`; the board holds that 3 at `(0, 0)` and a player-placed 5 at
`(0, 1)`; the selection is both cells and the key is 5.  Every selected
non-given cell equals `Digit 5`, so by the claim the call should toggle off
and leave `(0, 1)` `Empty`; the code instead keeps `(0, 1)` at `Digit 5`,
because the given cell holding 3 makes `numberExistsInAll` false. -/
theorem place_digit_toggle_condition_counterexample :
    (∀ q ∈ [((0 : Fin 9), (0 : Fin 9)), ((0 : Fin 9), (1 : Fin 9))],
      isGiven (setCell emptyBoard 0 0 (Cell.digit 3)) q.1 q.2 = false →
      setCell (setCell emptyBoard 0 0 (Cell.digit 3)) 0 1 (Cell.digit 5) q.1 q.2 =
        Cell.digit 5) ∧
    placeDigit (setCell emptyBoard 0 0 (Cell.digit 3))
      (setCell (setCell emptyBoard 0 0 (Cell.digit 3)) 0 1 (Cell.digit 5))
      [(0, 0), (0, 1)] 5 0 1 = Cell.digit 5 := by
  constructor
  · decide
  · decide

theorem cellErase_of_not_candHolds (x : Cell) (d : Nat)
    (h : candHolds x d = false) : cellErase x d = x := by
  cases x with
  | empty => rfl
  | digit k => rfl
  | cand s =>
    simp only [candHolds, decide_eq_false_iff_not] at h
    simp [cellErase, Finset.erase_eq_of_not_mem h]

theorem foldl_place_step_pointwise (p : Board) (d : Nat) (flag : Bool) :
    ∀ (L : List (Fin 9 × Fin 9)) (acc : Board) (i j : Fin 9),
      (∀ q ∈ L, isGiven p q.1 q.2 = false) →
      (flag = false → ∀ q ∈ L, ∀ x y : Fin 9, SameGroup q.1 q.2 x y →
        candHolds (acc x y) d = false) →
      (L.foldl (fun acc x =>
        if isGiven p x.1 x.2 then acc
        else if flag then setCell acc x.1 x.2 Cell.empty
        else removeCandidates (setCell acc x.1 x.2 (Cell.digit d)) x.1 x.2 d) acc) i j =
      if (i, j) ∈ L then (if flag then Cell.empty else Cell.digit d)
      else acc i j := by
  intro L
  induction L with
  | nil =>
    intro acc i j _ _
    simp
  | cons q L ih =>
    intro acc i j hng hnc
    have hgq : isGiven p q.1 q.2 = false := hng q (List.mem_cons_self q L)
    have hstep : ∀ x y : Fin 9,
        (if isGiven p q.1 q.2 then acc
         else if flag then setCell acc q.1 q.2 Cell.empty
         else removeCandidates (setCell acc q.1 q.2 (Cell.digit d)) q.1 q.2 d) x y =
        if (x, y) = q then (if flag then Cell.empty else Cell.digit d)
        else acc x y := by
      intro x y
      rw [if_neg (by simp [hgq])]
      cases flag with
      | true =>
        simp only [if_true]
        rw [setCell_apply]
        by_cases hxy : x = q.1 ∧ y = q.2
        · rw [if_pos hxy, if_pos (Prod.ext hxy.1 hxy.2)]
        · rw [if_neg hxy,
            if_neg (fun h => hxy ⟨congrArg Prod.fst h, congrArg Prod.snd h⟩)]
      | false =>
        simp only [Bool.false_eq_true, if_false]
        rw [removeCandidates_apply]
        by_cases hxy : x = q.1 ∧ y = q.2
        · rw [if_pos (show SameGroup q.1 q.2 x y from Or.inl hxy.1.symm),
            setCell_apply, if_pos hxy, if_pos (Prod.ext hxy.1 hxy.2)]
          rfl
        · have hset : setCell acc q.1 q.2 (Cell.digit d) x y = acc x y := by
            rw [setCell_apply, if_neg hxy]
          have hne : ¬ ((x, y) = q) :=
            fun h => hxy ⟨congrArg Prod.fst h, congrArg Prod.snd h⟩
          by_cases hsg : SameGroup q.1 q.2 x y
          · rw [if_pos hsg, hset,
              cellErase_of_not_candHolds _ _
                (hnc rfl q (List.mem_cons_self q L) x y hsg),
              if_neg hne]
          · rw [if_neg hsg, hset, if_neg hne]
    have hng2 : ∀ q' ∈ L, isGiven p q'.1 q'.2 = false :=
      fun q' h => hng q' (List.mem_cons_of_mem q h)
    have hnc2 : flag = false → ∀ q' ∈ L, ∀ x y : Fin 9, SameGroup q'.1 q'.2 x y →
        candHolds ((if isGiven p q.1 q.2 then acc
          else if flag then setCell acc q.1 q.2 Cell.empty
          else removeCandidates (setCell acc q.1 q.2 (Cell.digit d)) q.1 q.2 d) x y)
          d = false := by
      intro hff q' hq' x y hsg
      rw [hstep x y]
      by_cases hxy : (x, y) = q
      · rw [if_pos hxy, hff]
        simp [candHolds]
      · rw [if_neg hxy]
        exact hnc hff q' (List.mem_cons_of_mem q hq') x y hsg
    simp only [List.foldl_cons]
    rw [ih _ i j hng2 hnc2, hstep i j]
    by_cases hm : (i, j) ∈ L
    · rw [if_pos hm, if_pos (List.mem_cons_of_mem q hm)]
    · rw [if_neg hm]
      by_cases hq : (i, j) = q
      · have hmem : (i, j) ∈ q :: L := by
          rw [hq]
          exact List.mem_cons_self q L
        rw [if_pos hq, if_pos hmem]
      · have hnmem : ¬ ((i, j) ∈ q :: L) := by
          rw [List.mem_cons]
          rintro (h | h)
          · exact hq h
          · exact hm h
        rw [if_neg hq, if_neg hnmem]

/-- Claim C5 (amended): the toggle law for `place_digit` holds on a
selection of non-given, currently `Empty` cells when the placed digit does
not occur among the pencil marks of any cell sharing a row, column, or box
with a selected cell: under these conditions two successive calls with the
same arguments restore the board.  In general the law fails, because the
first call destroys state the second call does not rebuild (overwritten cell
contents and pruned pencil marks). -/
theorem place_digit_double_toggle (p b : Board) (sel : List (Fin 9 × Fin 9))
    (d : Nat)
    (hng : ∀ q ∈ sel, isGiven p q.1 q.2 = false)
    (hemp : ∀ q ∈ sel, b q.1 q.2 = Cell.empty)
    (hnoc : ∀ q ∈ sel, ∀ x y : Fin 9, SameGroup q.1 q.2 x y →
      candHolds (b x y) d = false) :
    placeDigit p (placeDigit p b sel d) sel d = b := by
  by_cases hsel : sel = []
  · subst hsel
    rfl
  · obtain ⟨q0, hq0⟩ := List.exists_mem_of_ne_nil sel hsel
    have hflag1 : numberExistsInAll b sel d = false := by
      have hne : ¬ (numberExistsInAll b sel d = true) := by
        unfold numberExistsInAll
        rw [List.all_eq_true]
        intro hall
        have h := hall q0 hq0
        rw [hemp q0 hq0] at h
        simp at h
      cases hv : numberExistsInAll b sel d with
      | false => rfl
      | true => exact absurd hv hne
    have hB1 : ∀ x y : Fin 9, placeDigit p b sel d x y =
        if (x, y) ∈ sel then Cell.digit d else b x y := by
      intro x y
      have h := foldl_place_step_pointwise p d (numberExistsInAll b sel d)
        sel b x y hng (fun _ => hnoc)
      have hval : (if (x, y) ∈ sel then
          (if numberExistsInAll b sel d then Cell.empty else Cell.digit d)
          else b x y) =
          if (x, y) ∈ sel then Cell.digit d else b x y := by
        rw [hflag1]
        simp
      exact h.trans hval
    have hflag2 : numberExistsInAll (placeDigit p b sel d) sel d = true := by
      unfold numberExistsInAll
      rw [List.all_eq_true]
      intro q hq
      have h := hB1 q.1 q.2
      rw [Prod.mk.eta] at h
      rw [h, if_pos hq]
      simp
    funext i j
    have h2 := foldl_place_step_pointwise p d
      (numberExistsInAll (placeDigit p b sel d) sel d) sel
      (placeDigit p b sel d) i j hng
      (fun hff => absurd (hflag2.symm.trans hff) (by simp))
    have hval2 : (if (i, j) ∈ sel then
        (if numberExistsInAll (placeDigit p b sel d) sel d then Cell.empty
         else Cell.digit d)
        else placeDigit p b sel d i j) = b i j := by
      by_cases hm : (i, j) ∈ sel
      · rw [if_pos hm, hflag2, if_pos rfl]
        exact (hemp (i, j) hm).symm
      · rw [if_neg hm, hB1 i j, if_neg hm]
    exact h2.trans hval2

theorem place_digit_double_toggle_witness :
    placeDigit emptyBoard (placeDigit emptyBoard emptyBoard [(0, 0)] 5)
      [(0, 0)] 5 = emptyBoard :=
  place_digit_double_toggle emptyBoard emptyBoard [(0, 0)] 5
    (by decide) (by decide) (by decide)

/-- Counterexample to claim C5 as stated: on a board whose non-given cell
`(0, 0)` holds `Digit 7`, placing 5 on the selection `[(0, 0)]` twice does
not restore the board — the first call overwrites the 7 with a 5, and the
second call toggles the 5 off to `Empty`, so the original 7 is lost. -/
theorem place_digit_double_toggle_counterexample :
    placeDigit emptyBoard
      (placeDigit emptyBoard (setCell emptyBoard 0 0 (Cell.digit 7)) [(0, 0)] 5)
      [(0, 0)] 5 ≠ setCell emptyBoard 0 0 (Cell.digit 7) := by
  intro heq
  have hg : isGiven emptyBoard (0 : Fin 9) (0 : Fin 9) = false := by decide
  have hmem : ((0 : Fin 9), (0 : Fin 9)) ∈ [((0 : Fin 9), (0 : Fin 9))] :=
    List.mem_cons_self _ _
  have h1 : placeDigit emptyBoard (setCell emptyBoard 0 0 (Cell.digit 7))
      [(0, 0)] 5 0 0 = Cell.digit 5 := by
    have h := foldl_place_step_mem emptyBoard 5
      (numberExistsInAll (setCell emptyBoard 0 0 (Cell.digit 7)) [(0, 0)] 5)
      [(0, 0)] (setCell emptyBoard 0 0 (Cell.digit 7)) (0, 0) hmem hg
    have hval : (if numberExistsInAll (setCell emptyBoard 0 0 (Cell.digit 7))
        [(0, 0)] 5 then Cell.empty else Cell.digit 5) = Cell.digit 5 := by
      decide
    exact h.trans hval
  have hflag2 : numberExistsInAll
      (placeDigit emptyBoard (setCell emptyBoard 0 0 (Cell.digit 7)) [(0, 0)] 5)
      [(0, 0)] 5 = true := by
    unfold numberExistsInAll
    simp only [List.all_cons, List.all_nil, Bool.and_true]
    rw [h1]
    rfl
  have h2 : placeDigit emptyBoard
      (placeDigit emptyBoard (setCell emptyBoard 0 0 (Cell.digit 7)) [(0, 0)] 5)
      [(0, 0)] 5 0 0 = Cell.empty := by
    have h := foldl_place_step_mem emptyBoard 5
      (numberExistsInAll
        (placeDigit emptyBoard (setCell emptyBoard 0 0 (Cell.digit 7)) [(0, 0)] 5)
        [(0, 0)] 5)
      [(0, 0)]
      (placeDigit emptyBoard (setCell emptyBoard 0 0 (Cell.digit 7)) [(0, 0)] 5)
      (0, 0) hmem hg
    have hval : (if numberExistsInAll
        (placeDigit emptyBoard (setCell emptyBoard 0 0 (Cell.digit 7)) [(0, 0)] 5)
        [(0, 0)] 5 then Cell.empty else Cell.digit 5) = Cell.empty := by
      rw [hflag2]
      rfl
    exact h.trans hval
  have hcell := congrFun (congrFun heq (0 : Fin 9)) (0 : Fin 9)
  rw [h2] at hcell
  rw [show setCell emptyBoard 0 0 (Cell.digit 7) 0 0 = Cell.digit 7 from rfl]
    at hcell
  exact Cell.noConfusion hcell

theorem cellErase_of_not_cand (x : Cell) (v : Nat)
    (h : isCandCell x = false) : cellErase x v = x := by
  cases x with
  | empty => rfl
  | digit k => rfl
  | cand s => exact absurd h (by simp [isCandCell])

theorem foldl_preserves {α : Type} (f : Board → α → Board) (P : Board → Prop)
    (hstep : ∀ acc x, P acc → P (f acc x)) :
    ∀ (L : List α) (acc : Board), P acc → P (L.foldl f acc) := by
  intro L
  induction L with
  | nil => intro acc h; exact h
  | cons x L ih =>
    intro acc h
    rw [List.foldl_cons]
    exact ih _ (hstep acc x h)

theorem applyAction_keeps_given (puzzle b : Board) (a : PlayerAction)
    (r c : Fin 9) (hg : isGiven puzzle r c = true)
    (hnc : isCandCell (puzzle r c) = false) (hb : b r c = puzzle r c) :
    applyAction puzzle b a r c = puzzle r c := by
  have hne : ∀ x : Fin 9 × Fin 9, isGiven puzzle x.1 x.2 = false →
      ¬ (r = x.1 ∧ c = x.2) := by
    rintro x hx ⟨h1, h2⟩
    rw [← h1, ← h2] at hx
    rw [hg] at hx
    exact Bool.noConfusion hx
  cases a with
  | place sel d =>
    simp only [applyAction]
    by_cases h1 : sel.isEmpty
    · rw [if_pos h1]; exact hb
    · rw [if_neg h1]
      by_cases h2 : 1 ≤ d ∧ d ≤ 9
      · rw [if_pos h2]
        refine foldl_preserves _ (fun bd => bd r c = puzzle r c) ?_ sel b hb
        intro acc x hacc
        by_cases hgx : isGiven puzzle x.1 x.2 = true
        · rw [if_pos hgx]; exact hacc
        · rw [if_neg hgx]
          have hnex := hne x (Bool.not_eq_true _ ▸ hgx)
          by_cases hf : numberExistsInAll b sel d
          · rw [if_pos hf, setCell_apply, if_neg hnex]; exact hacc
          · rw [if_neg hf, removeCandidates_apply, setCell_apply, if_neg hnex,
              hacc]
            split
            · exact cellErase_of_not_cand _ _ hnc
            · rfl
      · rw [if_neg h2]; exact hb
  | pencil sel d =>
    simp only [applyAction]
    by_cases h1 : sel.isEmpty
    · rw [if_pos h1]; exact hb
    · rw [if_neg h1]
      by_cases h2 : 1 ≤ d ∧ d ≤ 9
      · rw [if_pos h2]
        refine foldl_preserves _ (fun bd => bd r c = puzzle r c) ?_ sel b hb
        intro acc x hacc
        by_cases hgx : isGiven puzzle x.1 x.2 = true
        · rw [if_pos hgx]; exact hacc
        · rw [if_neg hgx]
          have hnex := hne x (Bool.not_eq_true _ ▸ hgx)
          rw [setCell_apply, if_neg hnex]
          exact hacc
      · rw [if_neg h2]; exact hb
  | clear sel =>
    simp only [applyAction]
    by_cases h1 : sel.isEmpty
    · rw [if_pos h1]; exact hb
    · rw [if_neg h1]
      refine foldl_preserves _ (fun bd => bd r c = puzzle r c) ?_ sel b hb
      intro acc x hacc
      by_cases hgx : isGiven puzzle x.1 x.2 = true
      · rw [if_pos hgx]; exact hacc
      · rw [if_neg hgx]
        have hnex := hne x (Bool.not_eq_true _ ▸ hgx)
        rw [setCell_apply, if_neg hnex]
        exact hacc

/-- Claim C8: for every board reachable from the initial board (a copy of
the puzzle) by any sequence of player actions, every given cell still holds
exactly its puzzle digit.  The hypothesis that the puzzle has no pencil-mark
cells reflects the Puzzle data type of the spec (`Digit` or `Empty` only;
`generateNewPuzzle` only produces such grids). -/
theorem given_cells_immutable (puzzle : Board)
    (hpz : ∀ r c : Fin 9, isCandCell (puzzle r c) = false)
    (acts : List PlayerAction) (r c : Fin 9)
    (hg : isGiven puzzle r c = true) :
    (acts.foldl (applyAction puzzle) puzzle) r c = puzzle r c := by
  have hgen : ∀ (as : List PlayerAction) (b : Board), b r c = puzzle r c →
      (as.foldl (applyAction puzzle) b) r c = puzzle r c := by
    intro as
    induction as with
    | nil => intro b hb; exact hb
    | cons a as ih =>
      intro b hb
      rw [List.foldl_cons]
      exact ih _ (applyAction_keeps_given puzzle b a r c hg (hpz r c) hb)
  exact hgen acts puzzle rfl

theorem given_cells_immutable_witness :
    (List.foldl (applyAction (setCell emptyBoard 0 0 (Cell.digit 5)))
      (setCell emptyBoard 0 0 (Cell.digit 5))
      [PlayerAction.place [(0, 1)] 7, PlayerAction.clear [(0, 0)],
       PlayerAction.pencil [(0, 0)] 3]) 0 0 =
    setCell emptyBoard 0 0 (Cell.digit 5) 0 0 :=
  given_cells_immutable (setCell emptyBoard 0 0 (Cell.digit 5))
    (by decide)
    [PlayerAction.place [(0, 1)] 7, PlayerAction.clear [(0, 0)],
     PlayerAction.pencil [(0, 0)] 3] 0 0 (by decide)

theorem solve_eq_none (oracle : Board → List Nat) (b : Board)
    (h : findEmpty b = none) : solve oracle b = some b := by
  rw [solve]
  simp only [cloneBoard]
  split
  · rfl
  · next r c heq =>
    rw [h] at heq
    exact Option.noConfusion heq

theorem solve_eq_some (oracle : Board → List Nat) (b : Board) (r c : Fin 9)
    (h : findEmpty b = some (r, c)) :
    solve oracle b = solveTry oracle b r c (oracle b) (findEmpty_some h) := by
  rw [solve]
  simp only [cloneBoard]
  split
  · next heq =>
    rw [h] at heq
    exact Option.noConfusion heq
  · next r' c' heq =>
    rw [h] at heq
    obtain ⟨h1, h2⟩ := Prod.mk.injEq .. ▸ Option.some.injEq .. ▸ heq
    subst h1
    subst h2
    rfl

theorem solve_some_findEmpty_none (oracle : Board → List Nat) :
    ∀ (n : Nat) (b : Board), numEmpty b ≤ n →
      ∀ b', solve oracle b = some b' → findEmpty b' = none := by
  intro n
  induction n with
  | zero =>
    intro b hn b' hs
    cases hfe : findEmpty b with
    | none =>
      rw [solve_eq_none oracle b hfe] at hs
      obtain rfl := Option.some.inj hs
      exact hfe
    | some rc =>
      obtain ⟨r, c⟩ := rc
      have hlt := numEmpty_setCell_digit_lt b r c 1 (findEmpty_some hfe)
      omega
  | succ n ih =>
    intro b hn b' hs
    cases hfe : findEmpty b with
    | none =>
      rw [solve_eq_none oracle b hfe] at hs
      obtain rfl := Option.some.inj hs
      exact hfe
    | some rc =>
      obtain ⟨r, c⟩ := rc
      rw [solve_eq_some oracle b r c hfe] at hs
      have hinner : ∀ (nums : List Nat) (hrc : b r c = Cell.empty) b',
          solveTry oracle b r c nums hrc = some b' → findEmpty b' = none := by
        intro nums
        induction nums with
        | nil =>
          intro hrc b' hs
          rw [solveTry] at hs
          exact Option.noConfusion hs
        | cons num rest ihn =>
          intro hrc b' hs
          rw [solveTry] at hs
          by_cases hv : solveIsValid (setCell b r c (Cell.digit num)) num r c = true
          · rw [if_pos hv] at hs
            cases hsol : solve oracle (setCell b r c (Cell.digit num)) with
            | some solved =>
              rw [hsol] at hs
              have heq := Option.some.inj hs
              subst heq
              have hlt := numEmpty_setCell_digit_lt b r c num hrc
              exact ih (setCell b r c (Cell.digit num)) (by omega) _ hsol
            | none =>
              rw [hsol] at hs
              exact ihn hrc b' hs
          · rw [if_neg hv] at hs
            exact ihn hrc b' hs
      exact hinner (oracle b) (findEmpty_some hfe) b' hs

theorem countSolutions_of_complete (b : Board) (h : findEmpty b = none) :
    countSolutions b = 1 := by
  unfold countSolutions countSolutionsPair
  rw [show (82 : Nat) = 81 + 1 from rfl, csBacktrack_succ, h]

theorem carve_good (solution : Board) :
    ∀ (picks : List (Fin 9 × Fin 9)) (n : Nat) (puzzle : Board),
      countSolutions puzzle = 1 →
      (∀ r c : Fin 9, puzzle r c ≠ Cell.empty → puzzle r c = solution r c) →
      ∀ p, carve picks n puzzle = some p →
        countSolutions p = 1 ∧
        (∀ r c : Fin 9, p r c ≠ Cell.empty → p r c = solution r c) := by
  intro picks
  induction picks with
  | nil =>
    intro n puzzle h1 h2 p hc
    cases n with
    | zero =>
      rw [carve] at hc
      obtain rfl := Option.some.inj hc
      exact ⟨h1, h2⟩
    | succ n =>
      rw [carve] at hc
      exact Option.noConfusion hc
  | cons pk rest ih =>
    intro n puzzle h1 h2 p hc
    cases n with
    | zero =>
      rw [carve] at hc
      obtain rfl := Option.some.inj hc
      exact ⟨h1, h2⟩
    | succ n =>
      obtain ⟨r, c⟩ := pk
      rw [carve] at hc
      simp only [cloneBoard] at hc
      by_cases hne : puzzle r c ≠ Cell.empty
      · rw [if_pos hne] at hc
        by_cases hcs : countSolutions (setCell puzzle r c Cell.empty) = 1
        · rw [if_pos hcs] at hc
          refine ih n (setCell puzzle r c Cell.empty) hcs ?_ p hc
          intro r' c' hne'
          rw [setCell_apply] at hne' ⊢
          by_cases hij : r' = r ∧ c' = c
          · rw [if_pos hij] at hne'
            exact absurd rfl hne'
          · rw [if_neg hij] at hne' ⊢
            exact h2 r' c' hne'
        · rw [if_neg hcs] at hc
          exact ih (n + 1) puzzle h1 h2 p hc
      · rw [if_neg hne] at hc
        exact ih (n + 1) puzzle h1 h2 p hc

/-- Claim C1: every `(Puzzle, Solution)` pair that `generateNewPuzzle`
returns satisfies: each non-empty puzzle cell holds exactly the solution
digit of its coordinate, and `countSolutions` on the returned puzzle is
exactly 1.  Quantified over the injected randomness (digit-order oracle,
pick stream, removal-count draw). -/
theorem generateNewPuzzle_good (oracle : Board → List Nat)
    (picks : List (Fin 9 × Fin 9)) (t : Fin 11) :
    GoodGen (generateNewPuzzle oracle picks t) := by
  cases hsol : solve oracle (cloneBoard emptyBoard) with
  | none =>
    unfold generateNewPuzzle
    rw [hsol]
    exact trivial
  | some solution =>
    have hstep : generateNewPuzzle oracle picks t =
        match carve picks (t.val + 46) (cloneBoard solution) with
        | none => none
        | some puzzle => some (puzzle, solution) := by
      unfold generateNewPuzzle
      rw [hsol]
    cases hcv : carve picks (t.val + 46) (cloneBoard solution) with
    | none =>
      rw [hstep, hcv]
      exact trivial
    | some puzzle =>
      rw [hstep, hcv]
      have hcomp : findEmpty solution = none :=
        solve_some_findEmpty_none oracle (numEmpty (cloneBoard emptyBoard))
          (cloneBoard emptyBoard) le_rfl solution hsol
      have h1 : countSolutions (cloneBoard solution) = 1 :=
        countSolutions_of_complete (cloneBoard solution) hcomp
      have hgood := carve_good solution picks (t.val + 46) (cloneBoard solution)
        h1 (fun _ _ _ => rfl) puzzle hcv
      exact ⟨hgood.2, hgood.1⟩

theorem sameGroup_symm {r c r' c' : Fin 9} (h : SameGroup r c r' c') :
    SameGroup r' c' r c := by
  rcases h with h | h | ⟨h1, h2⟩
  · exact Or.inl h.symm
  · exact Or.inr (Or.inl h.symm)
  · exact Or.inr (Or.inr ⟨h1.symm, h2.symm⟩)

theorem solveIsValid_spec (b : Board) (num : Nat) (r c : Fin 9)
    (hv : solveIsValid (setCell b r c (Cell.digit num)) num r c = true) :
    ∀ r' c' : Fin 9, SameGroup r c r' c' → (r', c') ≠ (r, c) →
      b r' c' ≠ Cell.digit num := by
  unfold solveIsValid at hv
  simp only [List.all_eq_true, List.mem_finRange, true_implies, Bool.and_eq_true,
    Bool.not_eq_true', Bool.and_eq_false_iff, beq_eq_false_iff_ne, ne_eq,
    bne_eq_false_iff_eq, Bool.or_eq_false_iff] at hv
  obtain ⟨hline, hbox⟩ := hv
  intro r' c' hsg hne heq
  have hne2 : ¬ (r' = r ∧ c' = c) := by
    rintro ⟨h1, h2⟩
    exact hne (Prod.ext h1 h2)
  have hcell : setCell b r c (Cell.digit num) r' c' = Cell.digit num := by
    rw [setCell_apply, if_neg hne2, heq]
  rcases hsg with hsg | hsg | ⟨h1, h2⟩
  · -- same row: r = r'
    rcases (hline c').1 with h | h
    · rw [← hsg] at hcell
      exact h hcell
    · exact hne2 ⟨hsg.symm, h⟩
  · -- same column: c = c'
    rcases (hline r').2 with h | h
    · rw [← hsg] at hcell
      exact h hcell
    · exact hne2 ⟨h, hsg.symm⟩
  · -- same box
    obtain ⟨i, hi⟩ := boxJoin_surj h1.symm
    obtain ⟨j, hj⟩ := boxJoin_surj h2.symm
    rcases hbox i j with h | ⟨h3, h4⟩
    · rw [hi, hj] at h
      exact h hcell
    · rw [hi] at h3
      rw [hj] at h4
      exact hne2 ⟨h3, h4⟩

theorem inv_preserve (b : Board) (r c : Fin 9) (num : Nat)
    (hnum : 1 ≤ num ∧ num ≤ 9)
    (hdr : DigitsInRange b) (hnc : NoCandCells b) (hnd : NoPeerDup b)
    (hv : solveIsValid (setCell b r c (Cell.digit num)) num r c = true) :
    DigitsInRange (setCell b r c (Cell.digit num)) ∧
    NoCandCells (setCell b r c (Cell.digit num)) ∧
    NoPeerDup (setCell b r c (Cell.digit num)) := by
  have hspec := solveIsValid_spec b num r c hv
  refine ⟨?_, ?_, ?_⟩
  · intro r' c' d h
    rw [setCell_apply] at h
    by_cases hij : r' = r ∧ c' = c
    · rw [if_pos hij] at h
      obtain rfl := Cell.digit.inj h
      exact hnum
    · rw [if_neg hij] at h
      exact hdr r' c' d h
  · intro r' c' s h
    rw [setCell_apply] at h
    by_cases hij : r' = r ∧ c' = c
    · rw [if_pos hij] at h
      exact Cell.noConfusion h
    · rw [if_neg hij] at h
      exact hnc r' c' s h
  · intro r1 c1 r2 c2 d hsg hne h1 h2
    rw [setCell_apply] at h1 h2
    by_cases hij1 : r1 = r ∧ c1 = c
    · rw [if_pos hij1] at h1
      obtain rfl := Cell.digit.inj h1
      by_cases hij2 : r2 = r ∧ c2 = c
      · exact hne (Prod.ext (hij1.1.trans hij2.1.symm) (hij1.2.trans hij2.2.symm))
      · rw [if_neg hij2] at h2
        have hsg2 : SameGroup r c r2 c2 := by
          rw [← hij1.1, ← hij1.2]
          exact hsg
        exact hspec r2 c2 hsg2
          (fun hp => hij2 ⟨congrArg Prod.fst hp, congrArg Prod.snd hp⟩) h2
    · rw [if_neg hij1] at h1
      by_cases hij2 : r2 = r ∧ c2 = c
      · rw [if_pos hij2] at h2
        obtain rfl := Cell.digit.inj h2
        have hsg2 : SameGroup r c r1 c1 := by
          rw [← hij2.1, ← hij2.2]
          exact sameGroup_symm hsg
        exact hspec r1 c1 hsg2
          (fun hp => hij1 ⟨congrArg Prod.fst hp, congrArg Prod.snd hp⟩) h1
      · rw [if_neg hij2] at h2
        exact hnd r1 c1 r2 c2 d hsg hne h1 h2

theorem solve_inv (oracle : Board → List Nat)
    (hOr : ∀ b : Board, ∀ x ∈ oracle b, 1 ≤ x ∧ x ≤ 9) :
    ∀ (n : Nat) (b : Board), numEmpty b ≤ n →
      DigitsInRange b → NoCandCells b → NoPeerDup b →
      ∀ b', solve oracle b = some b' →
        DigitsInRange b' ∧ NoCandCells b' ∧ NoPeerDup b' := by
  intro n
  induction n with
  | zero =>
    intro b hn hdr hnc hnd b' hs
    cases hfe : findEmpty b with
    | none =>
      rw [solve_eq_none oracle b hfe] at hs
      obtain rfl := Option.some.inj hs
      exact ⟨hdr, hnc, hnd⟩
    | some rc =>
      obtain ⟨r, c⟩ := rc
      have hlt := numEmpty_setCell_digit_lt b r c 1 (findEmpty_some hfe)
      omega
  | succ n ih =>
    intro b hn hdr hnc hnd b' hs
    cases hfe : findEmpty b with
    | none =>
      rw [solve_eq_none oracle b hfe] at hs
      obtain rfl := Option.some.inj hs
      exact ⟨hdr, hnc, hnd⟩
    | some rc =>
      obtain ⟨r, c⟩ := rc
      rw [solve_eq_some oracle b r c hfe] at hs
      have hinner : ∀ (nums : List Nat), (∀ x ∈ nums, 1 ≤ x ∧ x ≤ 9) →
          ∀ (hrc : b r c = Cell.empty) b',
          solveTry oracle b r c nums hrc = some b' →
          DigitsInRange b' ∧ NoCandCells b' ∧ NoPeerDup b' := by
        intro nums
        induction nums with
        | nil =>
          intro _ _hrc b' hs
          rw [solveTry] at hs
          exact Option.noConfusion hs
        | cons num rest ihn =>
          intro hmem hrc b' hs
          rw [solveTry] at hs
          by_cases hv : solveIsValid (setCell b r c (Cell.digit num)) num r c = true
          · rw [if_pos hv] at hs
            cases hsol : solve oracle (setCell b r c (Cell.digit num)) with
            | some solved =>
              rw [hsol] at hs
              have heq := Option.some.inj hs
              subst heq
              have hlt := numEmpty_setCell_digit_lt b r c num hrc
              have hinv := inv_preserve b r c num
                (hmem num (List.mem_cons_self num rest)) hdr hnc hnd hv
              exact ih (setCell b r c (Cell.digit num)) (by omega)
                hinv.1 hinv.2.1 hinv.2.2 _ hsol
            | none =>
              rw [hsol] at hs
              exact ihn (fun x hx => hmem x (List.mem_cons_of_mem num hx))
                hrc b' hs
          · rw [if_neg hv] at hs
            exact ihn (fun x hx => hmem x (List.mem_cons_of_mem num hx))
              hrc b' hs
      exact hinner (oracle b) (hOr b) (findEmpty_some hfe) b' hs

theorem exactly_one_count {α : Type} [Fintype α] [DecidableEq α]
    (hcard : Fintype.card α = 9) (f : α → Nat)
    (hrange : ∀ x, f x ∈ Finset.Icc 1 9)
    (hinj : Function.Injective f) :
    ∀ d ∈ Finset.Icc 1 9, (Finset.univ.filter fun x => f x = d).card = 1 := by
  intro d hd
  have himg : Finset.image f Finset.univ = Finset.Icc 1 9 := by
    apply Finset.eq_of_subset_of_card_le
    · intro y hy
      rw [Finset.mem_image] at hy
      obtain ⟨x, _, rfl⟩ := hy
      exact hrange x
    · rw [Finset.card_image_of_injective _ hinj, Finset.card_univ, hcard]
      simp
  have hex : ∃ x, f x = d := by
    have hmem : d ∈ Finset.image f Finset.univ := himg ▸ hd
    rw [Finset.mem_image] at hmem
    obtain ⟨x, _, hx⟩ := hmem
    exact ⟨x, hx⟩
  obtain ⟨x0, hx0⟩ := hex
  rw [Finset.card_eq_one]
  refine ⟨x0, ?_⟩
  ext y
  simp only [Finset.mem_filter, Finset.mem_univ, true_and, Finset.mem_singleton]
  constructor
  · intro hy
    exact hinj (hy.trans hx0.symm)
  · intro hy
    subst hy
    exact hx0

theorem join3_div (a i : Fin 3) : (join3 a i).val / 3 = a.val := by
  have h1 := a.isLt
  have h2 := i.isLt
  simp only [join3]
  omega

theorem join3_inj {a : Fin 3} {i j : Fin 3} (h : join3 a i = join3 a j) :
    i = j := by
  have h1 := a.isLt
  have h2 := i.isLt
  have h3 := j.isLt
  have hv := congrArg Fin.val h
  simp only [join3] at hv
  apply Fin.ext
  omega

theorem latin_of_inv (b : Board) (hfe : findEmpty b = none)
    (hdr : DigitsInRange b) (hnc : NoCandCells b) (hnd : NoPeerDup b) :
    LatinBoard b := by
  have hcell : ∀ r c : Fin 9, b r c = Cell.digit (digitAt b r c) := by
    intro r c
    unfold digitAt
    cases hb : b r c with
    | empty => exact absurd hb (findEmpty_none hfe r c)
    | digit k => rfl
    | cand s => exact absurd hb (hnc r c s)
  have hrange : ∀ r c : Fin 9, digitAt b r c ∈ Finset.Icc 1 9 := by
    intro r c
    have h := hdr r c (digitAt b r c) (hcell r c)
    rw [Finset.mem_Icc]
    exact h
  intro d hd
  have hd9 : d ∈ Finset.Icc 1 9 := Finset.mem_Icc.mpr hd
  refine ⟨?_, ?_, ?_⟩
  · intro r
    have hinj : Function.Injective (fun c : Fin 9 => digitAt b r c) := by
      intro c1 c2 heq
      have heq2 : digitAt b r c1 = digitAt b r c2 := heq
      by_contra hne
      exact hnd r c1 r c2 (digitAt b r c1) (Or.inl rfl)
        (fun hp => hne (congrArg Prod.snd hp)) (hcell r c1)
        (heq2 ▸ hcell r c2)
    have h := exactly_one_count (by simp) (fun c : Fin 9 => digitAt b r c)
      (fun c => hrange r c) hinj d hd9
    have hconv : (Finset.univ.filter fun c : Fin 9 => b r c = Cell.digit d) =
        (Finset.univ.filter fun c : Fin 9 => digitAt b r c = d) := by
      ext x
      simp only [Finset.mem_filter, Finset.mem_univ, true_and]
      constructor
      · intro hh
        exact Cell.digit.inj ((hcell r x).symm.trans hh)
      · intro hh
        rw [hcell r x, hh]
    rw [hconv]
    exact h
  · intro c
    have hinj : Function.Injective (fun r : Fin 9 => digitAt b r c) := by
      intro r1 r2 heq
      have heq2 : digitAt b r1 c = digitAt b r2 c := heq
      by_contra hne
      exact hnd r1 c r2 c (digitAt b r1 c) (Or.inr (Or.inl rfl))
        (fun hp => hne (congrArg Prod.fst hp)) (hcell r1 c)
        (heq2 ▸ hcell r2 c)
    have h := exactly_one_count (by simp) (fun r : Fin 9 => digitAt b r c)
      (fun r => hrange r c) hinj d hd9
    have hconv : (Finset.univ.filter fun r : Fin 9 => b r c = Cell.digit d) =
        (Finset.univ.filter fun r : Fin 9 => digitAt b r c = d) := by
      ext x
      simp only [Finset.mem_filter, Finset.mem_univ, true_and]
      constructor
      · intro hh
        exact Cell.digit.inj ((hcell x c).symm.trans hh)
      · intro hh
        rw [hcell x c, hh]
    rw [hconv]
    exact h
  · intro br bc
    have hinj : Function.Injective
        (fun p : Fin 3 × Fin 3 => digitAt b (join3 br p.1) (join3 bc p.2)) := by
      intro p1 p2 heq
      have heq2 : digitAt b (join3 br p1.1) (join3 bc p1.2) =
          digitAt b (join3 br p2.1) (join3 bc p2.2) := heq
      by_contra hne
      have hpne : ¬ ((join3 br p1.1, join3 bc p1.2) =
          (join3 br p2.1, join3 bc p2.2)) := by
        intro hp
        apply hne
        have ha := join3_inj (congrArg Prod.fst hp)
        have hb2 := join3_inj (congrArg Prod.snd hp)
        exact Prod.ext ha hb2
      have hsg : SameGroup (join3 br p1.1) (join3 bc p1.2)
          (join3 br p2.1) (join3 bc p2.2) :=
        Or.inr (Or.inr ⟨(join3_div br p1.1).trans (join3_div br p2.1).symm,
          (join3_div bc p1.2).trans (join3_div bc p2.2).symm⟩)
      exact hnd _ _ _ _ (digitAt b (join3 br p1.1) (join3 bc p1.2)) hsg hpne
        (hcell _ _) (heq2 ▸ hcell _ _)
    have h := exactly_one_count (α := Fin 3 × Fin 3) (by simp)
      (fun p : Fin 3 × Fin 3 => digitAt b (join3 br p.1) (join3 bc p.2))
      (fun p => hrange _ _) hinj d hd9
    have hconv : (Finset.univ.filter fun p : Fin 3 × Fin 3 =>
        b (join3 br p.1) (join3 bc p.2) = Cell.digit d) =
        (Finset.univ.filter fun p : Fin 3 × Fin 3 =>
        digitAt b (join3 br p.1) (join3 bc p.2) = d) := by
      ext p
      simp only [Finset.mem_filter, Finset.mem_univ, true_and]
      constructor
      · intro hh
        exact Cell.digit.inj ((hcell _ _).symm.trans hh)
      · intro hh
        rw [hcell (join3 br p.1) (join3 bc p.2), hh]
    rw [hconv]
    exact h

/-- Claim C2: whenever `solve` returns a grid on the fully empty input,
every row, every column, and every 3 by 3 box of that grid contains each of
the nine digits exactly once.  The hypothesis on `oracle` records what the
source guarantees for the randomized digit order: it only ever proposes
digits from 1 to 9. -/
theorem solve_empty_latin (oracle : Board → List Nat)
    (hOr : ∀ b : Board, ∀ x ∈ oracle b, 1 ≤ x ∧ x ≤ 9) :
    LatinOpt (solve oracle emptyBoard) := by
  cases hs : solve oracle emptyBoard with
  | none => exact trivial
  | some b' =>
    have hfe := solve_some_findEmpty_none oracle (numEmpty emptyBoard)
      emptyBoard le_rfl b' hs
    have hdr : DigitsInRange emptyBoard := by
      intro r c d h
      exact absurd h (Cell.noConfusion)
    have hnc : NoCandCells emptyBoard := by
      intro r c s h
      exact Cell.noConfusion h
    have hnd : NoPeerDup emptyBoard := by
      intro r c r' c' d _ _ h
      exact absurd h (Cell.noConfusion)
    have hinv := solve_inv oracle hOr (numEmpty emptyBoard) emptyBoard le_rfl
      hdr hnc hnd b' hs
    exact latin_of_inv b' hfe hinv.1 hinv.2.1 hinv.2.2

theorem stdOracle_mem : ∀ b : Board, ∀ x ∈ stdOracle b, 1 ≤ x ∧ x ≤ 9 := by
  intro b x hx
  unfold stdOracle at hx
  cases hfe : findEmpty b with
  | none =>
    rw [hfe] at hx
    exact absurd hx (List.not_mem_nil x)
  | some rc =>
    obtain ⟨r, c⟩ := rc
    rw [hfe] at hx
    rw [List.mem_singleton] at hx
    subst hx
    constructor
    · omega
    · have h := Nat.mod_lt (r.val * 3 + r.val / 3 + c.val) (show 0 < 9 by omega)
      omega

theorem solve_empty_latin_witness : LatinOpt (solve stdOracle emptyBoard) :=
  solve_empty_latin stdOracle stdOracle_mem

theorem csBacktrack_fuel_irrel :
    ∀ (f g : Nat) (b : Board) (s : Nat), numEmpty b < f → numEmpty b < g →
      csBacktrack f b s = csBacktrack g b s := by
  intro f
  induction f with
  | zero =>
    intro g b s hf _
    omega
  | succ f ih =>
    intro g b s hf hg
    cases g with
    | zero => omega
    | succ g =>
      rw [csBacktrack_succ, csBacktrack_succ]
      cases hfe : findEmpty b with
      | none => rfl
      | some rc =>
        obtain ⟨r, c⟩ := rc
        have hrc := findEmpty_some hfe
        have hinner : ∀ (nums : List Nat) (b : Board) (s : Nat),
            b r c = Cell.empty → numEmpty b ≤ f → numEmpty b ≤ g →
            csTry f b r c nums s = csTry g b r c nums s := by
          intro nums
          induction nums with
          | nil =>
            intro b s _ _ _
            rw [csTry, csTry]
          | cons num rest ihn =>
            intro b s hbrc hbf hbg
            rw [csTry, csTry]
            by_cases hv : countIsValid b num r c = true
            · simp only [hv, if_true]
              have hlt := numEmpty_setCell_digit_lt b r c num hbrc
              have heqb : csBacktrack f (setCell b r c (Cell.digit num)) s =
                  csBacktrack g (setCell b r c (Cell.digit num)) s :=
                ih g (setCell b r c (Cell.digit num)) s (by omega) (by omega)
              rw [heqb]
              by_cases hgt :
                  (csBacktrack g (setCell b r c (Cell.digit num)) s).1 > 1
              · simp only [hgt, if_true]
              · simp only [hgt, if_false]
                have hres2 := csBacktrack_restore g
                  (setCell b r c (Cell.digit num)) s (by omega)
                rw [hres2, setCell_setCell, setCell_same b r c hbrc]
                exact ihn b _ hbrc hbf hbg
            · simp only [hv, if_false]
              exact ihn b s hbrc hbf hbg
        exact hinner (List.range' 1 9) b s hrc (by omega) (by omega)

theorem countSolutionsPair_fuel (b : Board) (f : Nat) (hf : numEmpty b < f) :
    csBacktrack f b 0 = countSolutionsPair b := by
  unfold countSolutionsPair
  exact csBacktrack_fuel_irrel f 82 b 0 hf (by have := numEmpty_le b; omega)
